import Mathlib

/-!
Shallow embedding of the location-resolution and geocoding pipeline of the
repository (src/carte.py, src/pages/carte_musees.py, src/pages/geocoding.py).
Strings are modelled as lists of characters.  The Unicode NFKD decomposition
and the combining-class predicate used by the column normalizer are modelled
on the character range the data uses (ASCII together with the accented Latin
letters listed in the decomposition table below); on that range the model
agrees with the Unicode character database, and every theorem that evaluates
them stays inside that range.
-/

namespace Musee

/-- Python s.split(sep) for a one-character separator, auxiliary form:
the first field together with the remaining fields. -/
def splitAux (sep : Char) : List Char → List Char × List (List Char)
  | [] => ([], [])
  | c :: cs =>
    let r := splitAux sep cs
    if c = sep then ([], r.1 :: r.2) else (c :: r.1, r.2)

/-- Python s.split(sep): always yields at least one field
(the empty string splits to one empty field). -/
def pySplit (sep : Char) (l : List Char) : List (List Char) :=
  (splitAux sep l).1 :: (splitAux sep l).2

/-- Python sep.join(parts) for a one-character separator. -/
def pyJoin (sep : Char) : List (List Char) → List Char
  | [] => []
  | [p] => p
  | p :: q :: ps => p ++ sep :: pyJoin sep (q :: ps)

/-- The whitespace characters removed by Python str.strip, ASCII range
(space, tab, newline, vertical tab, form feed, carriage return). -/
def wsChars : List Char :=
  [' ', Char.ofNat 9, Char.ofNat 10, Char.ofNat 11, Char.ofNat 12, Char.ofNat 13]

/-- Membership in the stripped-whitespace set. -/
def isWs (c : Char) : Bool := wsChars.contains c

/-- Python s.strip(): drop leading and trailing whitespace. -/
def pyStrip (l : List Char) : List Char :=
  ((l.dropWhile isWs).reverse.dropWhile isWs).reverse

/-- Python s.lower() on one character, ASCII range.  In the normalizer the
lower-casing runs after NFKD decomposition and accent-mark removal, so on the
modelled character range only ASCII reaches this step. -/
def pyLower (c : Char) : Char :=
  if 'A' ≤ c && c ≤ 'Z' then Char.ofNat (c.toNat + 32) else c

/-- Unicode combining marks of the combining-diacritics block: the characters
removed by the accent-stripping step of the normalizer.  Every character of
the modelled range has combining class zero except these. -/
def isCombining (c : Char) : Bool := 0x300 ≤ c.toNat && c.toNat ≤ 0x36F

/-- Unicode NFKD decomposition on the modelled character range: the accented
Latin letters below decompose to a base letter followed by a combining mark
(values taken from the Unicode character database); every other modelled
character is its own decomposition. -/
def nfkdChar (c : Char) : List Char :=
  if c = Char.ofNat 0xE0 then ['a', Char.ofNat 0x300]
  else if c = Char.ofNat 0xE2 then ['a', Char.ofNat 0x302]
  else if c = Char.ofNat 0xE7 then ['c', Char.ofNat 0x327]
  else if c = Char.ofNat 0xE9 then ['e', Char.ofNat 0x301]
  else if c = Char.ofNat 0xE8 then ['e', Char.ofNat 0x300]
  else if c = Char.ofNat 0xEA then ['e', Char.ofNat 0x302]
  else if c = Char.ofNat 0xEE then ['i', Char.ofNat 0x302]
  else if c = Char.ofNat 0xF4 then ['o', Char.ofNat 0x302]
  else if c = Char.ofNat 0xFB then ['u', Char.ofNat 0x302]
  else if c = Char.ofNat 0xC9 then ['E', Char.ofNat 0x301]
  else [c]

/-- The punctuation characters that normalize_col replaces by an underscore
(the tuple at src/carte.py line 17): space, slash, greater-than, hyphen, dot,
comma, semicolon, colon, both parentheses, single quote, double quote. -/
def punctChars : List Char :=
  [' ', '/', '>', '-', '.', ',', ';', ':', '(', ')', Char.ofNat 39, Char.ofNat 34]

/-- One pass of the replacement loop of normalize_col.  The source replaces
the twelve characters one at a time; since each pass replaces a distinct
single character by an underscore and never touches an underscore, the
sequential passes equal this single map. -/
def replaceChar (c : Char) : Char := if punctChars.contains c then '_' else c

/-- Embedding of the column normalizer (src/carte.py lines 12-20; the copy at
src/pages/carte_musees.py lines 29-45 is character-for-character identical):
NFKD-decompose, drop combining marks, lower-case, strip, replace punctuation
by underscores, split on underscores, drop empty parts, re-join. -/
def normalize_col (l : List Char) : List Char :=
  let s1 := (l.map nfkdChar).flatten
  let s2 := s1.filter (fun c => !isCombining c)
  let s3 := pyStrip (s2.map pyLower)
  let s4 := s3.map replaceChar
  pyJoin '_' ((pySplit '_' s4).filter (fun p => !p.isEmpty))

/-- The (pays, ville, musee) triple produced by both location parsers. -/
structure ParsedLocation where
  pays : Option (List Char)
  ville : Option (List Char)
  musee : Option (List Char)
deriving DecidableEq

/-- Embedding of parse_location from src/carte.py lines 22-35: a missing
value parses to the all-null triple; otherwise the string splits on commas,
each part is stripped; with two or more parts the museum and city are the
first two parts and the country is the last remaining part if any; with one
part that part is the museum. -/
def parse_location_carte : Option (List Char) → ParsedLocation
  | none => ⟨none, none, none⟩
  | some loc =>
    match (pySplit ',' loc).map pyStrip with
    | m :: v :: rest => ⟨rest.getLast?, some v, some m⟩
    | [m] => ⟨none, none, some m⟩
    | [] => ⟨none, none, none⟩

/-- Embedding of parse_location from src/pages/carte_musees.py lines 48-69:
identical to the carte.py variant except that the country is the third part
when at least three parts are present, else null. -/
def parse_location_pages : Option (List Char) → ParsedLocation
  | none => ⟨none, none, none⟩
  | some loc =>
    match (pySplit ',' loc).map pyStrip with
    | m :: v :: rest => ⟨rest.head?, some v, some m⟩
    | [m] => ⟨none, none, some m⟩
    | [] => ⟨none, none, none⟩

/-- Outcome of one call to the external geocoding operation, as observed by
the try block of get_city_coordinates: a location with coordinates, a
well-formed not-found answer (falsy location), or a raised exception. -/
inductive GeoOutcome where
  | found (lat lon : ℚ)
  | notFound
  | err
deriving DecidableEq

/-- Embedding of the manual override dictionary manual_fix_villes
(src/pages/geocoding.py lines 31-43).  Coordinates are modelled as exact
rationals carrying the decimal literals of the source. -/
def manual_fix_villes : List (List Char × (ℚ × ℚ)) :=
  [("Versailles".data, (48.804865, 2.120355)),
   ("Paris".data, (48.856613, 2.352222)),
   ("Nancy".data, (48.692054, 6.184417)),
   ("Bayonne".data, (43.49255, -1.47443)),
   ("Stockholm".data, (59.329323, 18.068581)),
   ("Berlin".data, (52.520008, 13.404954)),
   ("Mulhouse".data, (47.747, 7.335)),
   ("Meudon".data, (48.8147, 2.2518)),
   ("Amiens".data, (49.895, 2.295)),
   ("Monaco".data, (43.7384, 7.4246))]

/-- The query string built by get_city_coordinates:
city followed by a comma and the country when a country is given,
else the city alone (the f-string at src/pages/geocoding.py line 57). -/
def geoKey (city : List Char) (country : Option (List Char)) : List Char :=
  match country with
  | some k => city ++ (", ".data) ++ k
  | none => city

/-- Embedding of get_city_coordinates (src/pages/geocoding.py lines 54-74),
instrumented with the list of queries issued to the external service so that
call counts are statable.  A null city resolves to (null, null) with no call;
a city in the manual override table returns the table pair with no call;
otherwise one external call is issued and a found result returns its
coordinates while not-found and a raised exception both return (null, null)
without propagating. -/
def get_city_coordinates (geocode : List Char → GeoOutcome)
    (city country : Option (List Char)) :
    (Option ℚ × Option ℚ) × List (List Char) :=
  match city with
  | none => ((none, none), [])
  | some c =>
    match manual_fix_villes.lookup c with
    | some (lat, lon) => ((some lat, some lon), [])
    | none =>
      match geocode (geoKey c country) with
      | .found lat lon => ((some lat, some lon), [geoKey c country])
      | .notFound => ((none, none), [geoKey c country])
      | .err => ((none, none), [geoKey c country])

/-- Order-preserving first-occurrence deduplication, the behaviour of the
pandas unique call on a column. -/
def uniqueKeepFirst (l : List (List Char)) : List (List Char) :=
  l.foldl (fun acc x => if acc.contains x then acc else acc ++ [x]) []

/-- Embedding of villes_unique (src/pages/geocoding.py line 79): the ville
column with nulls dropped and duplicates removed, first occurrences kept. -/
def villes_unique (col : List (Option (List Char))) : List (List Char) :=
  uniqueKeepFirst (col.filterMap id)

/-- Body of the resolution loop (src/pages/geocoding.py lines 82-84): one
get_city_coordinates invocation for the current city, appended to
coords_dict; the issued queries are accumulated alongside. -/
def resolveStep (geocode : List Char → GeoOutcome)
    (st : List (List Char × (Option ℚ × Option ℚ)) × List (List Char))
    (v : List Char) :
    List (List Char × (Option ℚ × Option ℚ)) × List (List Char) :=
  let r := get_city_coordinates geocode (some v) none
  (st.1 ++ [(v, r.1)], st.2 ++ r.2)

/-- Embedding of the resolution loop (src/pages/geocoding.py lines 80-84):
one get_city_coordinates invocation per distinct non-null city, building
coords_dict; the second component accumulates every query issued to the
external service across the whole run. -/
def resolve (geocode : List Char → GeoOutcome) (col : List (Option (List Char))) :
    List (List Char × (Option ℚ × Option ℚ)) × List (List Char) :=
  (villes_unique col).foldl (resolveStep geocode) ([], [])

/-- Embedding of the coordinate join (src/pages/geocoding.py lines 89-90):
each record's city is looked up in coords_dict with default (null, null).
The source assigns latitude and longitude by two maps over the same column
with the same default; they are combined into one map to pairs. -/
def assemble (col : List (Option (List Char)))
    (coords : List (List Char × (Option ℚ × Option ℚ))) :
    List (Option ℚ × Option ℚ) :=
  col.map fun x =>
    match x with
    | none => (none, none)
    | some v =>
      match coords.lookup v with
      | some p => p
      | none => (none, none)

/-! ### Canonical-identifier vocabulary

The spec describes the normalizer output as an identifier of the shape
segment(_segment)* with lower-case alphanumeric segments.  The predicates
below formalise that shape; they are part of the specification side, not of
the source embedding. -/

/-- The lower-case ASCII letters and digits, the segment alphabet of a
canonical column name. -/
def lowerAlnumChars : List Char :=
  ['a', 'b', 'c', 'd', 'e', 'f', 'g', 'h', 'i', 'j', 'k', 'l', 'm',
   'n', 'o', 'p', 'q', 'r', 's', 't', 'u', 'v', 'w', 'x', 'y', 'z',
   '0', '1', '2', '3', '4', '5', '6', '7', '8', '9']

/-- Membership in the canonical segment alphabet. -/
def isLowerAlnum (c : Char) : Bool := lowerAlnumChars.contains c

/-- Scanner for the grammar segment(_segment)*: in mode true the scanner
stands at the start of a segment, in mode false inside a segment. -/
def canonScan : Bool → List Char → Bool
  | true, [] => false
  | true, c :: cs => isLowerAlnum c && canonScan false cs
  | false, [] => true
  | false, c :: cs =>
    if c = '_' then canonScan true cs else isLowerAlnum c && canonScan false cs

/-- A canonical identifier: empty, or of the shape segment(_segment)* with
nonempty lower-case alphanumeric segments. -/
def isCanonicalIdent (l : List Char) : Bool := l.isEmpty || canonScan true l

/-- The upper-case ASCII letters. -/
def upperChars : List Char :=
  ['A', 'B', 'C', 'D', 'E', 'F', 'G', 'H', 'I', 'J', 'K', 'L', 'M',
   'N', 'O', 'P', 'Q', 'R', 'S', 'T', 'U', 'V', 'W', 'X', 'Y', 'Z']

/-- The accented letters of the modelled NFKD table. -/
def accentChars : List Char :=
  [Char.ofNat 0xE0, Char.ofNat 0xE2, Char.ofNat 0xE7, Char.ofNat 0xE9,
   Char.ofNat 0xE8, Char.ofNat 0xEA, Char.ofNat 0xEE, Char.ofNat 0xF4,
   Char.ofNat 0xFB, Char.ofNat 0xC9]

/-- Accent-free characters a column header may use so that the normalizer
output stays inside the canonical alphabet: ASCII letters, digits, the
underscore and the twelve replaced punctuation characters. -/
def baseChars : List Char := lowerAlnumChars ++ upperChars ++ '_' :: punctChars

/-- The input alphabet of the amended normalizer claims: accent-free header
characters together with the modelled accented letters. -/
def allowedChars : List Char := baseChars ++ accentChars

/-- Characters that may appear in normalizer output: segment alphabet or the
separator. -/
def canonChar (c : Char) : Bool := isLowerAlnum c || c = '_'

/-- Characters possible after lower-casing: segment alphabet, separator, or a
replaced punctuation character. -/
def postChar (c : Char) : Bool := isLowerAlnum c || c = '_' || punctChars.contains c

/-- Membership in the accent-free header alphabet. -/
def baseChar (c : Char) : Bool := baseChars.contains c

/-- Characters possible right after NFKD decomposition of an allowed string:
accent-free header characters or combining marks. -/
def preChar (c : Char) : Bool := baseChar c || isCombining c

/-! ### Helper lemmas about the string utilities -/

/-- Stripping only drops characters: membership is preserved downward. -/
theorem mem_pyStrip {c : Char} {l : List Char} (h : c ∈ pyStrip l) : c ∈ l := by
  unfold pyStrip at h
  rw [List.mem_reverse] at h
  have h1 := (List.dropWhile_sublist _).mem h
  rw [List.mem_reverse] at h1
  exact (List.dropWhile_sublist _).mem h1

/-- Every character of a field produced by the split is a character of the
input that is not the separator. -/
theorem splitAux_chars (sep : Char) :
    ∀ l : List Char,
      (∀ c ∈ (splitAux sep l).1, c ∈ l ∧ c ≠ sep) ∧
      (∀ p ∈ (splitAux sep l).2, ∀ c ∈ p, c ∈ l ∧ c ≠ sep) := by
  intro l
  induction l with
  | nil => simp [splitAux]
  | cons a as ih =>
    by_cases ha : a = sep
    · subst ha
      simp only [splitAux, if_pos rfl]
      constructor
      · intro c hc; simp at hc
      · intro p hp c hc
        rcases List.mem_cons.mp hp with rfl | hp2
        · exact ⟨List.mem_cons_of_mem _ (ih.1 c hc).1, (ih.1 c hc).2⟩
        · exact ⟨List.mem_cons_of_mem _ ((ih.2 p hp2 c hc).1),
                 (ih.2 p hp2 c hc).2⟩
    · simp only [splitAux, if_neg ha]
      constructor
      · intro c hc
        rcases List.mem_cons.mp hc with rfl | hc2
        · exact ⟨List.mem_cons_self _ _, ha⟩
        · exact ⟨List.mem_cons_of_mem _ (ih.1 c hc2).1, (ih.1 c hc2).2⟩
      · intro p hp c hc
        exact ⟨List.mem_cons_of_mem _ ((ih.2 p hp c hc).1),
               (ih.2 p hp c hc).2⟩

/-- Joining the fields of a split over the same separator restores the
string, for every string. -/
theorem pyJoin_pySplit (sep : Char) : ∀ l : List Char, pyJoin sep (pySplit sep l) = l := by
  intro l
  induction l with
  | nil => rfl
  | cons a as ih =>
    unfold pySplit at ih ⊢
    by_cases ha : a = sep
    · simp only [splitAux, if_pos ha, pyJoin, List.nil_append]
      rw [ih, ha]
    · simp only [splitAux, if_neg ha]
      rcases h2 : (splitAux sep as).2 with _ | ⟨x, xs⟩
      · rw [h2] at ih
        simpa [pyJoin] using congrArg (a :: ·) ih
      · rw [h2] at ih
        simpa [pyJoin] using congrArg (a :: ·) ih

/-- A character of a joined list is the separator or a character of one of
the parts. -/
theorem mem_pyJoin (sep : Char) :
    ∀ parts : List (List Char), ∀ c ∈ pyJoin sep parts,
      c = sep ∨ ∃ p ∈ parts, c ∈ p := by
  intro parts
  induction parts with
  | nil => intro c hc; simp [pyJoin] at hc
  | cons p ps ih =>
    intro c hc
    rcases ps with _ | ⟨q, qs⟩
    · exact Or.inr ⟨p, List.mem_cons_self _ _, hc⟩
    · simp only [pyJoin] at hc
      rcases List.mem_append.mp hc with hc1 | hc2
      · exact Or.inr ⟨p, List.mem_cons_self _ _, hc1⟩
      · rcases List.mem_cons.mp hc2 with rfl | hc3
        · exact Or.inl rfl
        · rcases ih c hc3 with h | ⟨r, hr, hcr⟩
          · exact Or.inl h
          · exact Or.inr ⟨r, List.mem_cons_of_mem _ hr, hcr⟩

/-- A segment-alphabet character is not the separator. -/
theorem lowerAlnum_ne_sep {c : Char} (h : isLowerAlnum c = true) : c ≠ '_' := by
  intro hc; subst hc; simp [isLowerAlnum, lowerAlnumChars] at h

/-- Scanning inside a segment passes over segment-alphabet characters. -/
theorem canonScan_false_append {p rest : List Char}
    (hp : ∀ c ∈ p, isLowerAlnum c = true) (hr : canonScan false rest = true) :
    canonScan false (p ++ rest) = true := by
  induction p with
  | nil => simpa using hr
  | cons a as ih =>
    have ha : isLowerAlnum a = true := hp a (List.mem_cons_self _ _)
    have has : ∀ c ∈ as, isLowerAlnum c = true :=
      fun c hc => hp c (List.mem_cons_of_mem _ hc)
    simp only [List.cons_append, canonScan, if_neg (lowerAlnum_ne_sep ha)]
    exact And.intro ha (ih has) |> fun ⟨x, y⟩ => by simp [x, y]

/-- A nonempty segment followed by well-formed rest text scans from
segment-start mode. -/
theorem canonScan_true_append {p rest : List Char} (hne : p ≠ [])
    (hp : ∀ c ∈ p, isLowerAlnum c = true) (hr : canonScan false rest = true) :
    canonScan true (p ++ rest) = true := by
  rcases p with _ | ⟨a, as⟩
  · exact absurd rfl hne
  · have ha : isLowerAlnum a = true := hp a (List.mem_cons_self _ _)
    have has : ∀ c ∈ as, isLowerAlnum c = true :=
      fun c hc => hp c (List.mem_cons_of_mem _ hc)
    simp only [List.cons_append, canonScan]
    simp [ha, canonScan_false_append has hr]

/-- Joining nonempty segment-alphabet parts with the separator yields a
string accepted by the canonical grammar. -/
theorem canonScan_pyJoin :
    ∀ parts : List (List Char),
      (∀ p ∈ parts, p ≠ [] ∧ ∀ c ∈ p, isLowerAlnum c = true) →
      parts ≠ [] → canonScan true (pyJoin '_' parts) = true := by
  intro parts
  induction parts with
  | nil => intro _ h; exact absurd rfl h
  | cons p ps ih =>
    intro hall _
    have hp := hall p (List.mem_cons_self _ _)
    rcases ps with _ | ⟨q, qs⟩
    · simpa [pyJoin] using
        canonScan_true_append hp.1 hp.2 (rfl : canonScan false [] = true)
    · have hrest : canonScan false ('_' :: pyJoin '_' (q :: qs)) = true := by
        have := ih (fun r hr => hall r (List.mem_cons_of_mem _ hr)) (by simp)
        simpa [canonScan] using this
      simpa [pyJoin] using canonScan_true_append hp.1 hp.2 hrest

/-! ### Per-character facts, checked by evaluation over the finite alphabets -/

/-- Decomposing an allowed character yields only accent-free header
characters and combining marks. -/
theorem nfkd_of_allowed {c : Char} (h : c ∈ allowedChars) :
    ∀ d ∈ nfkdChar c, preChar d = true := by
  have hall : allowedChars.all (fun a => (nfkdChar a).all preChar) = true := by decide
  have := List.all_eq_true.mp hall c h
  exact fun d hd => List.all_eq_true.mp this d hd

/-- Lower-casing an accent-free header character yields a canonical-alphabet
character, the separator, or a replaced punctuation character. -/
theorem lower_of_base {c : Char} (h : baseChar c = true) :
    postChar (pyLower c) = true := by
  have hall : baseChars.all (fun a => postChar (pyLower a)) = true := by decide
  have hm : c ∈ baseChars := by
    simpa [baseChar, List.contains, List.elem_iff] using h
  exact List.all_eq_true.mp hall c hm

/-- A non-combining character that may appear after decomposition is an
accent-free header character. -/
theorem base_of_pre {c : Char} (h1 : preChar c = true) (h2 : isCombining c = false) :
    baseChar c = true := by
  unfold preChar at h1
  rcases Bool.or_eq_true_iff.mp h1 with h | h
  · exact h
  · rw [h] at h2; cases h2

/-- The replacement step maps post-lower-casing characters into the
canonical alphabet plus separator. -/
theorem replace_of_post {c : Char} (h : postChar c = true) :
    canonChar (replaceChar c) = true := by
  unfold postChar at h
  by_cases hp : punctChars.contains c = true
  · have hm : c ∈ punctChars := by simpa [List.contains, List.elem_iff] using hp
    have h2 : replaceChar c = '_' := by simp [replaceChar, hm]
    rw [h2]; decide
  · rw [Bool.not_eq_true] at hp
    have hm : c ∉ punctChars := by
      intro hmem
      rw [(by simpa [List.contains, List.elem_iff] using hmem : punctChars.contains c = true)] at hp
      cases hp
    have h2 : replaceChar c = c := by simp [replaceChar, hm]
    rw [h2]
    rw [hp, Bool.or_false] at h
    exact h

/-! ### Main lemma: on the allowed alphabet the normalizer output is a
canonical identifier over the lower-case alphanumeric alphabet -/

/-- Shared lemma behind the normalizer claims: for input over the allowed
alphabet, every output character is lower-case alphanumeric or the
separator, and the output as a whole is a canonical identifier. -/
theorem normalize_col_shape {l : List Char} (hl : ∀ c ∈ l, c ∈ allowedChars) :
    (∀ c ∈ normalize_col l, canonChar c = true) ∧
    isCanonicalIdent (normalize_col l) = true := by
  have h1 : ∀ c ∈ (l.map nfkdChar).flatten, preChar c = true := by
    intro c hc
    rcases List.mem_flatten.mp hc with ⟨d, hd, hcd⟩
    rcases List.mem_map.mp hd with ⟨a, ha, rfl⟩
    exact nfkd_of_allowed (hl a ha) c hcd
  have h2 : ∀ c ∈ ((l.map nfkdChar).flatten.filter (fun c => !isCombining c)),
      baseChar c = true := by
    intro c hc
    have hm := List.mem_filter.mp hc
    exact base_of_pre (h1 c hm.1) (by simpa using hm.2)
  have h3 : ∀ c ∈ pyStrip (((l.map nfkdChar).flatten.filter
      (fun c => !isCombining c)).map pyLower), postChar c = true := by
    intro c hc
    rcases List.mem_map.mp (mem_pyStrip hc) with ⟨a, ha, rfl⟩
    exact lower_of_base (h2 a ha)
  have h4 : ∀ c ∈ (pyStrip (((l.map nfkdChar).flatten.filter
      (fun c => !isCombining c)).map pyLower)).map replaceChar,
      canonChar c = true := by
    intro c hc
    rcases List.mem_map.mp hc with ⟨a, ha, rfl⟩
    exact replace_of_post (h3 a ha)
  set s4 := (pyStrip (((l.map nfkdChar).flatten.filter
      (fun c => !isCombining c)).map pyLower)).map replaceChar with hs4
  have hsplit := splitAux_chars '_' s4
  have hparts : ∀ p ∈ pySplit '_' s4, ∀ c ∈ p, isLowerAlnum c = true := by
    intro p hp c hc
    have hcc : c ∈ s4 ∧ c ≠ '_' := by
      rcases List.mem_cons.mp hp with rfl | hp2
      · exact hsplit.1 c hc
      · exact hsplit.2 p hp2 c hc
    have := h4 c hcc.1
    unfold canonChar at this
    rcases Bool.or_eq_true_iff.mp this with h | h
    · exact h
    · exact absurd (by simpa using h) hcc.2
  have hout : normalize_col l =
      pyJoin '_' ((pySplit '_' s4).filter (fun p => !p.isEmpty)) := rfl
  have hfparts : ∀ p ∈ (pySplit '_' s4).filter (fun p => !p.isEmpty),
      p ≠ [] ∧ ∀ c ∈ p, isLowerAlnum c = true := by
    intro p hp
    have hm := List.mem_filter.mp hp
    refine ⟨?_, hparts p hm.1⟩
    intro hnil
    rw [hnil] at hm
    simp at hm
  constructor
  · intro c hc
    rw [hout] at hc
    rcases mem_pyJoin '_' _ c hc with rfl | ⟨p, hp, hcp⟩
    · simp [canonChar]
    · have := (hfparts p hp).2 c hcp
      simp [canonChar, this]
  · rw [hout]
    rcases hf : (pySplit '_' s4).filter (fun p => !p.isEmpty) with _ | ⟨p, ps⟩
    · rw [hf]; decide
    · have hscan := canonScan_pyJoin (p :: ps) (by rw [← hf]; exact hfparts) (by simp)
      rw [hf]
      simp [isCanonicalIdent, hscan]

/-! ### The normalizer fixes canonical identifiers -/

/-- The canonical output alphabet as an explicit list. -/
def canonCharsList : List Char := lowerAlnumChars ++ ['_']

/-- Conversion from the canonical-alphabet predicate to list membership. -/
theorem mem_canonCharsList {c : Char} (h : canonChar c = true) :
    c ∈ canonCharsList := by
  unfold canonChar at h
  rcases Bool.or_eq_true_iff.mp h with h1 | h1
  · exact List.mem_append.mpr (Or.inl (by
      simpa [isLowerAlnum, List.contains, List.elem_iff] using h1))
  · exact List.mem_append.mpr (Or.inr (by simp [of_decide_eq_true h1]))

/-- Every stage of the normalizer fixes each canonical-alphabet character:
no decomposition, no combining class, already lower-case, not whitespace,
not replaced punctuation.  Checked by evaluation over the alphabet. -/
theorem canonChars_fixed {c : Char} (h : c ∈ canonCharsList) :
    nfkdChar c = [c] ∧ isCombining c = false ∧ pyLower c = c ∧
    isWs c = false ∧ punctChars.contains c = false := by
  have hall : canonCharsList.all (fun c =>
      (nfkdChar c == [c]) && !isCombining c && (pyLower c == c) &&
      !isWs c && !punctChars.contains c) = true := by decide
  have hc := List.all_eq_true.mp hall c h
  simp only [Bool.and_eq_true, beq_iff_eq, Bool.not_eq_true'] at hc
  exact ⟨hc.1.1.1.1, hc.1.1.1.2, hc.1.1.2, hc.1.2, hc.2⟩

/-- dropWhile does nothing when the predicate fails on every element. -/
theorem dropWhile_id {p : Char → Bool} {l : List Char}
    (h : ∀ c ∈ l, p c = false) : l.dropWhile p = l := by
  cases l with
  | nil => rfl
  | cons a as => simp [List.dropWhile, h a (List.mem_cons_self _ _)]

/-- Stripping does nothing to a whitespace-free string. -/
theorem pyStrip_id {l : List Char} (h : ∀ c ∈ l, isWs c = false) :
    pyStrip l = l := by
  unfold pyStrip
  rw [dropWhile_id h,
      dropWhile_id (fun c hc => h c (List.mem_reverse.mp hc)),
      List.reverse_reverse]

/-- Mapping a function that fixes every element of a string is the
identity on it. -/
theorem map_id_of {f : Char → Char} {l : List Char} (h : ∀ c ∈ l, f c = c) :
    l.map f = l := by
  induction l with
  | nil => rfl
  | cons a as ih =>
    simp only [List.map_cons, h a (List.mem_cons_self _ _)]
    rw [ih (fun c hc => h c (List.mem_cons_of_mem _ hc))]

/-- Flattening singleton decompositions restores the string. -/
theorem flatten_map_id {l : List Char} (h : ∀ c ∈ l, nfkdChar c = [c]) :
    (l.map nfkdChar).flatten = l := by
  induction l with
  | nil => rfl
  | cons a as ih =>
    simp only [List.map_cons, List.flatten_cons, h a (List.mem_cons_self _ _)]
    rw [ih (fun c hc => h c (List.mem_cons_of_mem _ hc))]
    rfl

/-- On a string accepted by the canonical grammar the split produces no
empty fields. -/
theorem splitAux_nonempty :
    ∀ l : List Char,
      (canonScan true l = true →
        (splitAux '_' l).1 ≠ [] ∧ ∀ p ∈ (splitAux '_' l).2, p ≠ []) ∧
      (canonScan false l = true → ∀ p ∈ (splitAux '_' l).2, p ≠ []) := by
  intro l
  induction l with
  | nil =>
    constructor
    · intro h; cases h
    · intro _ p hp; simp [splitAux] at hp
  | cons a as ih =>
    constructor
    · intro h
      simp only [canonScan, Bool.and_eq_true] at h
      have ha : a ≠ '_' := lowerAlnum_ne_sep h.1
      simp only [splitAux, if_neg ha]
      exact ⟨by simp, ih.2 h.2⟩
    · intro h
      by_cases ha : a = '_'
      · rw [ha] at h
        simp only [canonScan, if_pos rfl] at h
        rw [ha]
        simp only [splitAux, if_pos rfl]
        intro p hp
        rcases List.mem_cons.mp hp with rfl | hp2
        · exact (ih.1 h).1
        · exact (ih.1 h).2 p hp2
      · simp only [canonScan, if_neg ha, Bool.and_eq_true] at h
        simp only [splitAux, if_neg ha]
        exact ih.2 h.2

/-- The normalizer fixes every canonical identifier over the canonical
alphabet. -/
theorem normalize_col_fixed {l : List Char}
    (hc : ∀ c ∈ l, canonChar c = true)
    (hcanon : isCanonicalIdent l = true) : normalize_col l = l := by
  by_cases hnil : l = []
  · rw [hnil]; decide
  · have hfix := fun c hcm => canonChars_fixed (mem_canonCharsList (hc c hcm))
    have hscan : canonScan true l = true := by
      unfold isCanonicalIdent at hcanon
      rcases Bool.or_eq_true_iff.mp hcanon with h1 | h1
      · exact absurd (List.isEmpty_iff.mp h1) hnil
      · exact h1
    have e1 : (l.map nfkdChar).flatten = l :=
      flatten_map_id (fun c hcm => (hfix c hcm).1)
    have e2 : l.filter (fun c => !isCombining c) = l :=
      List.filter_eq_self.mpr (fun c hcm => by
        rw [(hfix c hcm).2.1]; rfl)
    have e3 : l.map pyLower = l :=
      map_id_of (fun c hcm => (hfix c hcm).2.2.1)
    have e4 : pyStrip l = l :=
      pyStrip_id (fun c hcm => (hfix c hcm).2.2.2.1)
    have e5 : l.map replaceChar = l :=
      map_id_of (fun c hcm => by
        have hm : c ∉ punctChars := by
          intro hmem
          have h2 : punctChars.contains c = true := by
            simpa [List.contains, List.elem_iff] using hmem
          rw [(hfix c hcm).2.2.2.2] at h2
          cases h2
        simp [replaceChar, hm])
    show pyJoin '_' ((pySplit '_' ((pyStrip (((l.map nfkdChar).flatten.filter
      (fun c => !isCombining c)).map pyLower)).map replaceChar)).filter
        (fun p => !p.isEmpty)) = l
    rw [e1, e2, e3, e4, e5]
    have hne := (splitAux_nonempty l).1 hscan
    have hfilter : (pySplit '_' l).filter (fun p => !p.isEmpty) = pySplit '_' l :=
      List.filter_eq_self.mpr (fun p hp => by
        have hpne : p ≠ [] := by
          rcases List.mem_cons.mp hp with rfl | hp2
          · exact hne.1
          · exact hne.2 p hp2
        simpa [List.isEmpty_iff] using hpne)
    rw [hfilter, pyJoin_pySplit]

/-! ### Claim theorems: column normalizer -/

/-- C4 counterexample: the normalizer maps a%b to a%b unchanged, and that
output contains the character %, which is outside the alphabet a-z, 0-9,
underscore, so the output is not of the claimed canonical shape. -/
theorem normalize_col_not_always_canonical :
    normalize_col ("a%b".data) = "a%b".data ∧
    isCanonicalIdent (normalize_col ("a%b".data)) = false := by decide

/-- C4 (amended): the empty input yields the empty string, and for every
input over the allowed header alphabet (ASCII letters and digits, the
underscore, the twelve replaced punctuation characters, and the modelled
accented letters) the normalizer output matches segment(_segment)* with
nonempty lower-case alphanumeric segments — hence it contains no
whitespace, no accented characters, and nothing outside a-z, 0-9 and the
underscore. -/
theorem normalize_col_canonical_on_allowed :
    normalize_col [] = [] ∧
    ∀ l : List Char, (∀ c ∈ l, c ∈ allowedChars) →
      isCanonicalIdent (normalize_col l) = true ∧
      ∀ c ∈ normalize_col l, canonChar c = true := by
  refine ⟨by decide, fun l hl => ?_⟩
  have h := normalize_col_shape hl
  exact ⟨h.2, h.1⟩

/-- Witness for the amended C4 at the header of the source data that
carries parentheses, spaces and an accented letter. -/
theorem normalize_col_canonical_witness :
    isCanonicalIdent (normalize_col ("Titre (ou désignation)".data)) = true ∧
    ∀ c ∈ normalize_col ("Titre (ou désignation)".data), canonChar c = true :=
  normalize_col_canonical_on_allowed.2 _ (by decide)

/-- C5 counterexample: normalization is not idempotent on every string.
The input a-tab-underscore normalizes to a-tab (the interior tab survives
the replacement table and the strip), and a second normalization strips the
now-trailing tab, giving a different string. -/
theorem normalize_col_not_idempotent :
    normalize_col (normalize_col ("a\t_".data)) ≠
      normalize_col ("a\t_".data) := by decide

/-- C5 (amended): over the allowed header alphabet (which contains no
whitespace other than the space character) normalization is idempotent;
determinism is immediate since the normalizer is a pure function of its
input. -/
theorem normalize_col_idempotent_on_allowed :
    ∀ l : List Char, (∀ c ∈ l, c ∈ allowedChars) →
      normalize_col (normalize_col l) = normalize_col l :=
  fun _ hl =>
    normalize_col_fixed (normalize_col_shape hl).1 (normalize_col_shape hl).2

/-- Witness for the amended C5 at a concrete header. -/
theorem normalize_col_idempotent_witness :
    normalize_col (normalize_col ("Lieu de conservation".data)) =
      normalize_col ("Lieu de conservation".data) :=
  normalize_col_idempotent_on_allowed _ (by decide)

/-! ### Claim theorems: location parsers -/

/-- C6: the two location-parsing implementations agree on the null input
and on every string input with at most three comma-delimited segments, and
both parse Louvre, Paris, France into museum Louvre, city Paris, country
France. -/
theorem parse_location_variants_agree :
    (∀ s : List Char, (pySplit ',' s).length ≤ 3 →
      parse_location_carte (some s) = parse_location_pages (some s)) ∧
    parse_location_carte none = parse_location_pages none ∧
    parse_location_carte (some ("Louvre, Paris, France".data)) =
      ⟨some ("France".data), some ("Paris".data), some ("Louvre".data)⟩ ∧
    parse_location_pages (some ("Louvre, Paris, France".data)) =
      ⟨some ("France".data), some ("Paris".data), some ("Louvre".data)⟩ := by
  refine ⟨?_, rfl, by decide, by decide⟩
  intro s h
  rcases hs : pySplit ',' s with _ | ⟨a, _ | ⟨b, _ | ⟨c, _ | ⟨d, t⟩⟩⟩⟩
  · simp [parse_location_carte, parse_location_pages, hs]
  · simp [parse_location_carte, parse_location_pages, hs]
  · simp [parse_location_carte, parse_location_pages, hs]
  · simp [parse_location_carte, parse_location_pages, hs]
  · rw [hs] at h
    simp [List.length] at h

/-- Witness for C6 at a two-segment input, discharging the segment-count
hypothesis. -/
theorem parse_location_variants_agree_witness :
    parse_location_carte (some ("Pinacoteca, Milano".data)) =
      parse_location_pages (some ("Pinacoteca, Milano".data)) :=
  parse_location_variants_agree.1 _ (by decide)

/-- C7: both parsers send the null input to the all-null triple; a string
whose split has exactly one segment parses to that segment (stripped) as
museum with city and country null; both parsers are total Lean functions,
so no input raises. -/
theorem parse_location_null_and_single :
    parse_location_carte none = ⟨none, none, none⟩ ∧
    parse_location_pages none = ⟨none, none, none⟩ ∧
    ∀ s m : List Char, pySplit ',' s = [m] →
      parse_location_carte (some s) = ⟨none, none, some (pyStrip m)⟩ ∧
      parse_location_pages (some s) = ⟨none, none, some (pyStrip m)⟩ := by
  refine ⟨rfl, rfl, fun s m h => ?_⟩
  constructor
  · simp [parse_location_carte, h]
  · simp [parse_location_pages, h]

/-- Witness for C7 at a one-segment input. -/
theorem parse_location_null_and_single_witness :
    parse_location_carte (some ("Petit Palais".data)) =
      ⟨none, none, some (pyStrip ("Petit Palais".data))⟩ ∧
    parse_location_pages (some ("Petit Palais".data)) =
      ⟨none, none, some (pyStrip ("Petit Palais".data))⟩ :=
  parse_location_null_and_single.2.2 _ _ (by decide)

/-- C10: splitting any string on commas yields at least one segment, so for
string inputs both parsers always produce a non-null museum field (the
all-null branch is unreachable), and the empty string parses to the empty
museum string with city and country null. -/
theorem parse_location_string_never_all_null :
    (∀ s : List Char, 1 ≤ (pySplit ',' s).length) ∧
    (∀ s : List Char, (parse_location_carte (some s)).musee.isSome = true ∧
      (parse_location_pages (some s)).musee.isSome = true) ∧
    parse_location_carte (some []) = ⟨none, none, some []⟩ ∧
    parse_location_pages (some []) = ⟨none, none, some []⟩ := by
  refine ⟨fun s => ?_, fun s => ?_, rfl, rfl⟩
  · simp [pySplit]
  · rcases hs : pySplit ',' s with _ | ⟨a, _ | ⟨b, t⟩⟩
    · exact absurd hs (by simp [pySplit])
    · constructor <;> simp [parse_location_carte, parse_location_pages, hs]
    · constructor <;> simp [parse_location_carte, parse_location_pages, hs]

/-! ### Claim theorems: geocoding resolver -/

/-- One invocation of get_city_coordinates issues at most one external
query, whatever the city, country and service behaviour. -/
theorem get_city_coordinates_calls_le_one
    (geocode : List Char → GeoOutcome) (city country : Option (List Char)) :
    (get_city_coordinates geocode city country).2.length ≤ 1 := by
  unfold get_city_coordinates
  rcases city with _ | c
  · simp
  · rcases h : manual_fix_villes.lookup c with _ | ⟨la, lo⟩
    · rcases h2 : geocode (geoKey c country) with ⟨la, lo⟩ | _ | _ <;> simp [h, h2]
    · simp [h]

/-- Fold invariant of the resolution loop: each iteration adds exactly one
dictionary entry and at most one external query. -/
theorem resolve_fold_bound (geocode : List Char → GeoOutcome) :
    ∀ (L : List (List Char)) (d : List (List Char × (Option ℚ × Option ℚ)))
      (cs : List (List Char)),
      (L.foldl (resolveStep geocode) (d, cs)).1.length = d.length + L.length ∧
      (L.foldl (resolveStep geocode) (d, cs)).2.length ≤ cs.length + L.length := by
  intro L
  induction L with
  | nil => intro d cs; simp
  | cons v vs ih =>
    intro d cs
    have hstep : resolveStep geocode (d, cs) v =
        (d ++ [(v, (get_city_coordinates geocode (some v) none).1)],
         cs ++ (get_city_coordinates geocode (some v) none).2) := rfl
    simp only [List.foldl_cons, hstep]
    have h1 := ih (d ++ [(v, (get_city_coordinates geocode (some v) none).1)])
      (cs ++ (get_city_coordinates geocode (some v) none).2)
    have h2 := get_city_coordinates_calls_le_one geocode (some v) none
    constructor
    · rw [h1.1]
      simp [List.length_append]
      omega
    · have h3 := h1.2
      rw [List.length_append] at h3
      simp only [List.length_cons]
      omega

/-- C1: one run of the resolver issues at most one external query per
distinct non-null city — the query count is bounded by the size of the
deduplicated city set, however many records reference each city — and the
loop invokes the lookup exactly once per distinct city (one dictionary
entry each). -/
theorem resolve_at_most_one_call_per_city :
    ∀ (geocode : List Char → GeoOutcome) (col : List (Option (List Char))),
      (resolve geocode col).2.length ≤ (villes_unique col).length ∧
      (resolve geocode col).1.length = (villes_unique col).length := by
  intro g col
  have h := resolve_fold_bound g (villes_unique col) [] []
  exact ⟨by simpa using h.2, by simpa using h.1⟩

/-- C2: a city present in the manual override table resolves to the
table's coordinate pair and issues no external query. -/
theorem manual_override_skips_network :
    ∀ (geocode : List Char → GeoOutcome) (city : List Char)
      (country : Option (List Char)) (lat lon : ℚ),
      manual_fix_villes.lookup city = some (lat, lon) →
      get_city_coordinates geocode (some city) country =
        ((some lat, some lon), []) := by
  intro g city country lat lon h
  simp only [get_city_coordinates, h]

/-- Witness for C2: Paris is in the override table, so even a service that
always raises is never consulted. -/
theorem manual_override_skips_network_witness :
    get_city_coordinates (fun _ => GeoOutcome.err) (some ("Paris".data)) none =
      ((some (48.856613 : ℚ), some (2.352222 : ℚ)), []) :=
  manual_override_skips_network _ _ _ _ _ rfl

/-- C3: for a city outside the override table, when the external call
reports not-found or raises, get_city_coordinates returns the unresolved
pair (null, null); the exception is absorbed, never propagated. -/
theorem geocode_failure_yields_unresolved :
    ∀ (geocode : List Char → GeoOutcome) (city : List Char)
      (country : Option (List Char)),
      manual_fix_villes.lookup city = none →
      (geocode (geoKey city country) = GeoOutcome.notFound ∨
        geocode (geoKey city country) = GeoOutcome.err) →
      get_city_coordinates geocode (some city) country =
        ((none, none), [geoKey city country]) := by
  intro g city country h1 h2
  rcases h2 with h2 | h2 <;> simp only [get_city_coordinates, h1, h2]

/-- Witness for C3 at a city absent from the override table, with a
service that reports not-found. -/
theorem geocode_failure_yields_unresolved_witness :
    get_city_coordinates (fun _ => GeoOutcome.notFound)
      (some ("Atlantis".data)) none = ((none, none), ["Atlantis".data]) :=
  geocode_failure_yields_unresolved (fun _ => GeoOutcome.notFound)
    ("Atlantis".data) none (by decide) (Or.inl rfl)

/-- C8: assembly produces exactly one enriched record per input record, in
the same positions; a record with a null city, or whose city is absent from
the coordinate dictionary, receives null coordinates rather than failing;
a present city receives its mapped pair. -/
theorem assemble_preserves_records :
    ∀ (col : List (Option (List Char)))
      (coords : List (List Char × (Option ℚ × Option ℚ))),
      (assemble col coords).length = col.length ∧
      (∀ i : ℕ, col[i]? = some none →
        (assemble col coords)[i]? = some (none, none)) ∧
      (∀ (i : ℕ) (v : List Char), col[i]? = some (some v) →
        coords.lookup v = none →
        (assemble col coords)[i]? = some (none, none)) ∧
      (∀ (i : ℕ) (v : List Char) (p : Option ℚ × Option ℚ),
        col[i]? = some (some v) → coords.lookup v = some p →
        (assemble col coords)[i]? = some p) := by
  intro col coords
  refine ⟨by simp [assemble], ?_, ?_, ?_⟩
  · intro i h
    unfold assemble
    rw [List.getElem?_map, h]
    rfl
  · intro i v h1 h2
    unfold assemble
    rw [List.getElem?_map, h1]
    simp [h2]
  · intro i v p h1 h2
    unfold assemble
    rw [List.getElem?_map, h1]
    simp [h2]

/-- Witness for C8: a two-record dataset with one resolvable city and one
null city, plus a record whose city is absent from the dictionary. -/
theorem assemble_preserves_records_witness :
    (assemble [some ("Lyon".data), none]
      [(("Lyon".data), (some (45.76 : ℚ), some (4.84 : ℚ)))]).length = 2 ∧
    (assemble [some ("Lyon".data), none]
      [(("Lyon".data), (some (45.76 : ℚ), some (4.84 : ℚ)))])[1]? =
      some (none, none) ∧
    (assemble [some ("Lyon".data), none]
      [(("Lyon".data), (some (45.76 : ℚ), some (4.84 : ℚ)))])[0]? =
      some (some (45.76 : ℚ), some (4.84 : ℚ)) ∧
    (assemble [some ("Nulle Part".data)]
      ([] : List (List Char × (Option ℚ × Option ℚ))))[0]? =
      some (none, none) :=
  ⟨((assemble_preserves_records _ _).1).trans rfl,
   (assemble_preserves_records _ _).2.1 1 (by decide),
   (assemble_preserves_records _ _).2.2.2 0 ("Lyon".data)
     ((some (45.76 : ℚ), some (4.84 : ℚ))) (by decide) rfl,
   (assemble_preserves_records _ _).2.2.1 0 ("Nulle Part".data) (by decide) rfl⟩

/-! ### Rate limiter model (claim C9)

The limiter wrapping the geocode call is third-party library code that does
not appear in the repository source; only its configuration does, at
src/pages/geocoding.py line 49.  Its timing behaviour is modelled from the
spec in discrete time units below and instantiated with the configuration
the source passes. -/

/-- Configuration of the rate-limited geocode call: minimum delay between
consecutive external calls, bound on the number of retries, and the wait
between retries. -/
structure RLConfig where
  minDelay : ℕ
  maxRetries : ℕ
  errorWait : ℕ

/-- The configuration passed by the source at src/pages/geocoding.py
line 49: minimum delay 1, at most 3 retries, 5 time units between
retries. -/
def rlConfig : RLConfig := ⟨1, 3, 5⟩

/-- Modelled from the spec: the instants of the attempts for one query
whose first attempt happens at the given instant and which is retried the
given number of times, each retry after the fixed inter-retry wait. -/
def attemptTimes (t0 : ℕ) : ℕ → List ℕ
  | 0 => [t0]
  | k + 1 => t0 :: attemptTimes (t0 + rlConfig.errorWait) k

/-- Modelled from the spec: the instants of every external call of a run.
The list argument gives, per query in order, how many transient failures
the service produces for it; each query's first attempt waits the shared
minimum delay after the preceding call, and a failing query is retried at
most the configured number of times. -/
def runSchedule (lastCall : ℕ) : List ℕ → List ℕ
  | [] => []
  | f :: fs =>
    let t0 := lastCall + rlConfig.minDelay
    let k := min f rlConfig.maxRetries
    attemptTimes t0 k ++ runSchedule (t0 + k * rlConfig.errorWait) fs

/-- Consecutive elements are at least the given distance apart. -/
def gapsAtLeast (d : ℕ) : List ℕ → Bool
  | a :: b :: t => decide (a + d ≤ b) && gapsAtLeast d (b :: t)
  | _ => true

/-- Consecutive elements are exactly the given distance apart. -/
def gapsExact (w : ℕ) : List ℕ → Bool
  | a :: b :: t => decide (b = a + w) && gapsExact w (b :: t)
  | _ => true

/-- A lower bound on the head of a list of instants; trivial when empty. -/
def headGe (b : ℕ) : List ℕ → Prop
  | [] => True
  | x :: _ => b ≤ x

/-- The attempt list of a query starts with its first attempt. -/
theorem attemptTimes_cons (t0 k : ℕ) :
    ∃ rest, attemptTimes t0 k = t0 :: rest := by
  cases k with
  | zero => exact ⟨[], rfl⟩
  | succ k => exact ⟨attemptTimes (t0 + rlConfig.errorWait) k, rfl⟩

/-- A query retried k times is attempted k + 1 times. -/
theorem attemptTimes_length (t0 k : ℕ) :
    (attemptTimes t0 k).length = k + 1 := by
  induction k generalizing t0 with
  | zero => rfl
  | succ k ih => simp [attemptTimes, ih]

/-- Consecutive attempts of one query are exactly the inter-retry wait
apart. -/
theorem gapsExact_attemptTimes (t0 k : ℕ) :
    gapsExact rlConfig.errorWait (attemptTimes t0 k) = true := by
  induction k generalizing t0 with
  | zero => rfl
  | succ k ih =>
    obtain ⟨rest, hr⟩ := attemptTimes_cons (t0 + rlConfig.errorWait) k
    show gapsExact rlConfig.errorWait
      (t0 :: attemptTimes (t0 + rlConfig.errorWait) k) = true
    rw [hr]
    show (decide (t0 + rlConfig.errorWait = t0 + rlConfig.errorWait) &&
      gapsExact rlConfig.errorWait ((t0 + rlConfig.errorWait) :: rest)) = true
    rw [← hr, ih]
    simp

/-- Prepending one query's attempts to a schedule that keeps the minimum
gap, and whose first instant lies past the query's last attempt by at least
the gap, keeps the minimum gap. -/
theorem gapsAtLeast_attempt_append {d : ℕ} (hd : d ≤ rlConfig.errorWait) :
    ∀ (k t0 : ℕ) (rest : List ℕ), gapsAtLeast d rest = true →
      headGe (t0 + k * rlConfig.errorWait + d) rest →
      gapsAtLeast d (attemptTimes t0 k ++ rest) = true := by
  intro k
  induction k with
  | zero =>
    intro t0 rest h1 h2
    show gapsAtLeast d (t0 :: rest) = true
    rcases rest with _ | ⟨x, xs⟩
    · rfl
    · show (decide (t0 + d ≤ x) && gapsAtLeast d (x :: xs)) = true
      have hx : t0 + 0 * rlConfig.errorWait + d ≤ x := h2
      have hx2 : t0 + d ≤ x := by omega
      simp [hx2, h1]
  | succ k ih =>
    intro t0 rest h1 h2
    have hrec : gapsAtLeast d
        (attemptTimes (t0 + rlConfig.errorWait) k ++ rest) = true := by
      apply ih _ _ h1
      have heq : t0 + rlConfig.errorWait + k * rlConfig.errorWait + d =
          t0 + (k + 1) * rlConfig.errorWait + d := by ring
      rw [heq]
      exact h2
    obtain ⟨r2, hr⟩ := attemptTimes_cons (t0 + rlConfig.errorWait) k
    show gapsAtLeast d
      (t0 :: (attemptTimes (t0 + rlConfig.errorWait) k ++ rest)) = true
    rw [hr]
    show (decide (t0 + d ≤ t0 + rlConfig.errorWait) &&
      gapsAtLeast d ((t0 + rlConfig.errorWait) :: (r2 ++ rest))) = true
    rw [hr] at hrec
    simp only [List.cons_append] at hrec
    have hgap : t0 + d ≤ t0 + rlConfig.errorWait := by omega
    simp [hgap, hrec]

/-- The first call of a schedule happens at least the minimum delay after
the preceding call. -/
theorem runSchedule_headGe (t : ℕ) (fs : List ℕ) :
    headGe (t + rlConfig.minDelay) (runSchedule t fs) := by
  cases fs with
  | nil => trivial
  | cons f fs =>
    obtain ⟨rest, hr⟩ :=
      attemptTimes_cons (t + rlConfig.minDelay) (min f rlConfig.maxRetries)
    show headGe (t + rlConfig.minDelay)
      (attemptTimes (t + rlConfig.minDelay) (min f rlConfig.maxRetries) ++
        runSchedule (t + rlConfig.minDelay +
          min f rlConfig.maxRetries * rlConfig.errorWait) fs)
    rw [hr]
    show t + rlConfig.minDelay ≤ t + rlConfig.minDelay
    exact Nat.le_refl _

/-- All calls of a run, retries included and across all queries, are at
least the minimum delay apart. -/
theorem runSchedule_gaps (fs : List ℕ) :
    ∀ t : ℕ, gapsAtLeast rlConfig.minDelay (runSchedule t fs) = true := by
  induction fs with
  | nil => intro t; rfl
  | cons f fs ih =>
    intro t
    show gapsAtLeast rlConfig.minDelay
      (attemptTimes (t + rlConfig.minDelay) (min f rlConfig.maxRetries) ++
        runSchedule (t + rlConfig.minDelay +
          min f rlConfig.maxRetries * rlConfig.errorWait) fs) = true
    apply gapsAtLeast_attempt_append (by decide)
    · exact ih _
    · exact runSchedule_headGe _ fs

/-- C9: in the modelled limiter with the source's configuration, every two
consecutive external calls of a run — across all cities — are at least the
minimum delay apart; and each query is attempted at most 1 + 3 times, with
consecutive attempts exactly 5 time units apart. -/
theorem rate_limiter_schedule :
    (∀ (t : ℕ) (fs : List ℕ),
      gapsAtLeast rlConfig.minDelay (runSchedule t fs) = true) ∧
    (∀ t0 f : ℕ,
      (attemptTimes t0 (min f rlConfig.maxRetries)).length ≤
        rlConfig.maxRetries + 1 ∧
      gapsExact rlConfig.errorWait
        (attemptTimes t0 (min f rlConfig.maxRetries)) = true) := by
  constructor
  · intro t fs
    exact runSchedule_gaps fs t
  · intro t0 f
    constructor
    · rw [attemptTimes_length]
      have h := Nat.min_le_right f rlConfig.maxRetries
      omega
    · exact gapsExact_attemptTimes t0 _

end Musee
